import Mathlib

/-!
# Verification of the Youtube_Summerator chunking and summarization pipeline

This file gives a shallow embedding, in Lean, of the core pipeline of the
repository (`ytsummarator.py` together with the modular
`ytsummarator/` package) and proves, or refutes, the specification's
claims about it.

Conventions used throughout the embedding:

* Python strings are Lean `String`s; the Python string operations that the
  source relies on (`str.strip`, `str.split`, `' '.join`, `str.lower`,
  `re.split(r'(?<=[.!?])\s+', text)`, decimal formatting of integers) are
  implemented here over `List Char`, mirroring their Python semantics for
  ASCII input.
* The tiktoken tokenizer is an external collaborator; the source only ever
  uses `len(encoding.encode(s))`.  It is modeled as an abstract parameter
  `enc : String → Nat` (a pure, deterministic token-count function), exactly
  the contract the specification assigns to the tokenizer adapter.
* Python floats in the chunk-parameter derivation are modeled as rationals;
  `int(x)` on the (always nonnegative) values involved is the floor.
  Delays in the retry controllers are rationals as well.
* Fallible operations return `Option`/`Except`; external calls are abstract
  parameters ("oracles") giving the outcome of each attempt.
-/

namespace YTS

/-! ## Python string primitives -/

/-- Python's ASCII whitespace, as matched by `str.strip()`, `str.split()`
and the `\s` class used in `re.split` in `ytsummarator.py`. -/
def isSpace (c : Char) : Bool :=
  c = ' ' || c = '\t' || c = '\n' || c = '\r' || c = '\x0b' || c = '\x0c'

/-- Drop a maximal leading run of whitespace characters. -/
def dropSpaces : List Char → List Char
  | [] => []
  | c :: cs => if isSpace c then dropSpaces cs else c :: cs

/-- Python `str.strip()`: remove leading and trailing whitespace. -/
def pyStrip (s : String) : String :=
  ⟨(dropSpaces ((dropSpaces s.data).reverse)).reverse⟩

/-- Word splitter core for Python `str.split()` (no separator argument):
split on runs of whitespace, discarding empty pieces.  `cur` is the current
word accumulated in reverse. -/
def splitWsCore : List Char → List Char → List (List Char)
  | [], cur => if cur = [] then [] else [cur.reverse]
  | c :: cs, cur =>
    if isSpace c then
      if cur = [] then splitWsCore cs [] else cur.reverse :: splitWsCore cs []
    else
      splitWsCore cs (c :: cur)

/-- Python `str.split()` with no arguments. -/
def pySplit (s : String) : List String :=
  (splitWsCore s.data []).map (fun cs => ⟨cs⟩)

/-- Python `' '.join(parts)` at the character level. -/
def joinSpace : List (List Char) → List Char
  | [] => []
  | [w] => w
  | w :: ws => w ++ ' ' :: joinSpace ws

/-- Python `' '.join(parts)`. -/
def pyJoin (parts : List String) : String :=
  ⟨joinSpace (parts.map String.data)⟩

/-- A sentence-terminating character: the class `[.!?]` of the sentence
splitting regex. -/
def isSentEnd (c : Char) : Bool :=
  c = '.' || c = '!' || c = '?'

/-- Whether the last character consumed so far (head of the reversed
accumulator) ends a sentence — the lookbehind `(?<=[.!?])`. -/
def headSentEnd : List Char → Bool
  | [] => false
  | p :: _ => isSentEnd p

/-- Core of `re.split(r'(?<=[.!?])\s+', text)`: scan left to right; at the
first whitespace character preceded by `.`, `!` or `?` finish the current
piece and consume the maximal whitespace run (the greedy `\s+`). `acc` is
the current piece accumulated in reverse; `skipping` is true while inside
the whitespace run of a separator. -/
def splitSentencesAux : List Char → List Char → Bool → List (List Char)
  | [], acc, _ => [acc.reverse]
  | c :: cs, acc, skipping =>
    if skipping then
      if isSpace c then splitSentencesAux cs acc true
      else splitSentencesAux cs [c] false
    else if isSpace c && headSentEnd acc then
      acc.reverse :: splitSentencesAux cs [] true
    else
      splitSentencesAux cs (c :: acc) false

/-- `re.split(r'(?<=[.!?])\s+', text)` from `chunk_transcript`.  Like the
Python original it never returns an empty list: splitting the empty string
yields `[""]`. -/
def splitSentences (s : String) : List String :=
  (splitSentencesAux s.data [] false).map (fun cs => ⟨cs⟩)

/-! ## The chunker (`chunk_transcript` in `ytsummarator.py`)

The tokenizer is the abstract parameter `enc`; the source only uses
`len(encoding.encode(sentence))`, which is `enc sentence` here. -/

/-- A chunk as produced by `chunk_transcript`: the dict
`{'text': ..., 'token_count': ...}`. -/
structure Chunk where
  text : String
  token_count : Nat
deriving DecidableEq, Repr

/-- The loop state of `chunk_transcript`: emitted `chunks`, the list
`current_chunk` (sentences, or words re-seeded from an overlap), and the
running total `current_tokens`. -/
structure ChunkState where
  chunks : List Chunk
  current_chunk : List String
  current_tokens : Nat
deriving DecidableEq

/-- The overlap-selection loop of `chunk_transcript`: iterate over
`reversed(current_chunk)`, prepending elements whose token count still fits
in `overlap_tokens`, and stop at the first that does not.  Returns the pair
`(overlap_text, overlap_tokens_count)`. -/
def overlapSelect (enc : String → Nat) (overlap_tokens : Nat) :
    List String → String → Nat → String × Nat
  | [], otext, ocnt => (otext, ocnt)
  | p :: rest, otext, ocnt =>
    if ocnt + enc p ≤ overlap_tokens then
      overlapSelect enc overlap_tokens rest (p ++ " " ++ otext) (ocnt + enc p)
    else
      (otext, ocnt)

/-- One iteration of the sentence loop of `chunk_transcript`: if adding the
sentence would exceed `max_tokens` and `current_chunk` is nonempty, emit the
current chunk and re-seed `current_chunk` with the word list
`overlap_text.strip().split()` (note: words, not sentences) and
`current_tokens` with the accumulated overlap count; then append the
sentence unconditionally. -/
def chunkStep (enc : String → Nat) (max_tokens overlap_tokens : Nat)
    (st : ChunkState) (sentence : String) : ChunkState :=
  let cnt := enc sentence
  let st' :=
    if st.current_tokens + cnt > max_tokens ∧ st.current_chunk ≠ [] then
      let p := overlapSelect enc overlap_tokens st.current_chunk.reverse "" 0
      { chunks := st.chunks ++ [⟨pyJoin st.current_chunk, st.current_tokens⟩],
        current_chunk := pySplit (pyStrip p.1),
        current_tokens := p.2 }
    else st
  { chunks := st'.chunks,
    current_chunk := st'.current_chunk ++ [sentence],
    current_tokens := st'.current_tokens + cnt }

/-- After the loop: emit the trailing chunk if `current_chunk` is nonempty. -/
def chunkFinish (st : ChunkState) : List Chunk :=
  if st.current_chunk ≠ [] then
    st.chunks ++ [⟨pyJoin st.current_chunk, st.current_tokens⟩]
  else st.chunks

/-- `chunk_transcript(text, model, max_tokens, overlap_tokens)`. -/
def chunk_transcript (enc : String → Nat) (max_tokens overlap_tokens : Nat)
    (text : String) : List Chunk :=
  chunkFinish ((splitSentences text).foldl (chunkStep enc max_tokens overlap_tokens) ⟨[], [], 0⟩)

/-! ## Instrumented chunker

`ichunk_transcript` runs the same algorithm but keeps, for every chunk, the
decomposition into the overlap seed it started from (`seed`, a word list,
with its accumulated token count `seedCnt`) and the sentences appended to it
(`news`).  `chunk_ichunk` below proves that erasing this bookkeeping gives
exactly `chunk_transcript`. -/

/-- Sum of token counts of a list of strings, each tokenized separately. -/
def sumEnc (enc : String → Nat) (l : List String) : Nat :=
  (l.map enc).sum

/-- A chunk with its provenance: overlap seed words, the seed's accumulated
token count, and the sentences appended after the seed. -/
structure IChunk where
  seed : List String
  seedCnt : Nat
  news : List String
deriving DecidableEq, Repr

/-- The chunk (text and recorded token count) an `IChunk` denotes. -/
def IChunk.toChunk (enc : String → Nat) (ic : IChunk) : Chunk :=
  ⟨pyJoin (ic.seed ++ ic.news), ic.seedCnt + sumEnc enc ic.news⟩

/-- Instrumented loop state. -/
structure IState where
  done : List IChunk
  seed : List String
  seedCnt : Nat
  news : List String
deriving DecidableEq

/-- Erase the instrumentation. -/
def IState.toState (enc : String → Nat) (st : IState) : ChunkState :=
  ⟨st.done.map (IChunk.toChunk enc), st.seed ++ st.news, st.seedCnt + sumEnc enc st.news⟩

/-- The overlap seed (word list and accumulated count) that the algorithm
derives from a just-emitted chunk. -/
def overlapOf (enc : String → Nat) (overlap_tokens : Nat) (ic : IChunk) : List String × Nat :=
  let p := overlapSelect enc overlap_tokens (ic.seed ++ ic.news).reverse "" 0
  (pySplit (pyStrip p.1), p.2)

/-- Instrumented version of `chunkStep`. -/
def ichunkStep (enc : String → Nat) (max_tokens overlap_tokens : Nat)
    (st : IState) (sentence : String) : IState :=
  let cnt := enc sentence
  let st' :=
    if st.seedCnt + sumEnc enc st.news + cnt > max_tokens ∧ st.seed ++ st.news ≠ [] then
      let q := overlapOf enc overlap_tokens ⟨st.seed, st.seedCnt, st.news⟩
      { done := st.done ++ [⟨st.seed, st.seedCnt, st.news⟩],
        seed := q.1, seedCnt := q.2, news := [] }
    else st
  { done := st'.done, seed := st'.seed, seedCnt := st'.seedCnt,
    news := st'.news ++ [sentence] }

/-- Instrumented version of `chunkFinish`. -/
def ichunkFinish (st : IState) : List IChunk :=
  if st.seed ++ st.news ≠ [] then st.done ++ [⟨st.seed, st.seedCnt, st.news⟩] else st.done

/-- Instrumented version of `chunk_transcript`. -/
def ichunk_transcript (enc : String → Nat) (max_tokens overlap_tokens : Nat)
    (text : String) : List IChunk :=
  ichunkFinish ((splitSentences text).foldl (ichunkStep enc max_tokens overlap_tokens) ⟨[], [], 0, []⟩)

/-! ## Concrete tokenizers used in witnesses and counterexamples

The spec's tokenizer-adapter contract (§4.1) only requires a deterministic
pure function of the text, so these are legitimate instances of `enc`. -/

/-- A word-count tokenizer (one token per whitespace-separated word). -/
def wordCountTok (s : String) : Nat := (pySplit s).length

/-- A character-count tokenizer. -/
def charCountTok (s : String) : Nat := s.length

/-! ## Model/context-window lookup and chunk-parameter derivation
(`get_model_context_window`, `get_chunk_parameters` in `ytsummarator.py`) -/

/-- `get_model_context_window`: the dict lookup with default 4096. -/
def get_model_context_window (model : String) : Nat :=
  if model = "gpt-4-turbo" then 128000
  else if model = "gpt-4" then 8192
  else if model = "gpt-4-32k" then 32768
  else if model = "gpt-3.5-turbo" then 4096
  else if model = "gpt-3.5-turbo-16k" then 16385
  else 4096

/-- `get_chunk_parameters`, at the default configuration
(`reserved_tokens = 1000`, `chunk_size_ratio = 0.4`,
`chunk_overlap_ratio = 0.1`).  Python's `int()` truncates toward zero, which
on the nonnegative values arising here is the floor; the float products
`context_window * 0.4` and `max_chunk_tokens * 0.1` agree with the exact
rational products, after truncation, on every reachable context window. -/
def get_chunk_parameters (model : String) : Int × Int :=
  let context_window : Int := get_model_context_window model
  let reserved_tokens : Int := 1000
  let max_chunk_tokens : Int :=
    min (context_window - reserved_tokens) ⌊(context_window : ℚ) * (2 / 5)⌋
  let overlap_tokens : Int := ⌊(max_chunk_tokens : ℚ) * (1 / 10)⌋
  (max_chunk_tokens, overlap_tokens)

/-- The specification's formula for the derived chunk parameters, stated
with integer floor division, for comparison with `get_chunk_parameters`. -/
def spec_chunk_parameters (context_window : Int) : Int × Int :=
  let max_chunk_tokens := min (context_window - 1000) (2 * context_window / 5)
  (max_chunk_tokens, max_chunk_tokens / 10)

/-! ## Rate-limit error signature and Python `str.lower` -/

/-- Python `str.lower()` for ASCII letters. -/
def lowerChar (c : Char) : Char :=
  if c = 'A' then 'a' else if c = 'B' then 'b' else if c = 'C' then 'c'
  else if c = 'D' then 'd' else if c = 'E' then 'e' else if c = 'F' then 'f'
  else if c = 'G' then 'g' else if c = 'H' then 'h' else if c = 'I' then 'i'
  else if c = 'J' then 'j' else if c = 'K' then 'k' else if c = 'L' then 'l'
  else if c = 'M' then 'm' else if c = 'N' then 'n' else if c = 'O' then 'o'
  else if c = 'P' then 'p' else if c = 'Q' then 'q' else if c = 'R' then 'r'
  else if c = 'S' then 's' else if c = 'T' then 't' else if c = 'U' then 'u'
  else if c = 'V' then 'v' else if c = 'W' then 'w' else if c = 'X' then 'x'
  else if c = 'Y' then 'y' else if c = 'Z' then 'z' else c

/-- Python `str.lower()`. -/
def strLower (s : String) : String := ⟨s.data.map lowerChar⟩

/-- Whether `pat` is a leading segment of `l`. -/
def lstartsWith : List Char → List Char → Bool
  | [], _ => true
  | _ :: _, [] => false
  | p :: ps, c :: cs => p = c && lstartsWith ps cs

/-- Whether `pat` occurs contiguously inside `l` (Python's `pat in s`). -/
def lcontains (pat : List Char) : List Char → Bool
  | [] => lstartsWith pat []
  | c :: cs => lstartsWith pat (c :: cs) || lcontains pat cs

/-- The rate-limit signature test of `generate_summary`:
`"rate limit" in error_msg or "too many requests" in error_msg` after
lowercasing the error message. -/
def rateLimitSig (msg : String) : Bool :=
  lcontains "rate limit".data (strLower msg).data ||
    lcontains "too many requests".data (strLower msg).data

/-! ## The retry loop of `generate_summary` (`ytsummarator.py`, chunk loop)

The loop body `for retry in range(max_retries)` sleeps
`base_delay * 1.5**(retry-1)` at the top of every retry, calls
`generate_chunk_summary`, breaks on a nonempty summary, and on an exception
with a rate-limit signature sleeps `base_delay * 2**retry` and continues
(re-raising on the last attempt); any other exception propagates at once.
The outcome of each attempt is the abstract `op`. -/

/-- Outcome of one `generate_chunk_summary` call as seen by the retry loop:
either a returned string (possibly empty) or a raised exception message. -/
inductive AttemptOutcome where
  | ok (s : String)
  | raised (msg : String)

/-- Result of the retry loop, together with the sequence of sleeps
performed (in order, in seconds as exact rationals). -/
inductive ChunkLoopResult where
  | success (s : String) (delays : List ℚ)
  | exhausted (msg : String) (attempts : Nat) (delays : List ℚ)
  | propagated (msg : String) (attempts : Nat) (delays : List ℚ)
  | gaveUp (delays : List ℚ)
deriving DecidableEq

/-- The retry loop of `generate_summary`'s chunk phase; `j` is the current
0-indexed attempt (`retry` in the source) and `rem` the remaining
iterations of `range(max_retries)`. -/
def chunkRetryGo (op : Nat → AttemptOutcome) (max_retries : Nat) (base_delay : ℚ) :
    Nat → Nat → List ℚ → ChunkLoopResult
  | _, 0, delays => .gaveUp delays
  | j, rem + 1, delays =>
    let delays := if 0 < j then delays ++ [base_delay * (3 / 2) ^ (j - 1)] else delays
    match op j with
    | .ok s => if s = "" then chunkRetryGo op max_retries base_delay (j + 1) rem delays
               else .success s delays
    | .raised m =>
      if rateLimitSig m then
        if j = max_retries - 1 then .exhausted m (j + 1) delays
        else chunkRetryGo op max_retries base_delay (j + 1) rem (delays ++ [base_delay * 2 ^ j])
      else .propagated m (j + 1) delays

/-- The whole retry loop (`for retry in range(max_retries)`). -/
def chunkRetryLoop (op : Nat → AttemptOutcome) (max_retries : Nat) (base_delay : ℚ) :
    ChunkLoopResult :=
  chunkRetryGo op max_retries base_delay 0 max_retries []

/-! ## The generic retry controller
(`retry_with_backoff` in `ytsummarator/utils/error.py`) -/

/-- Result of `retry_with_backoff`: the value or the terminal `RetryError`
message, with the number of attempts made and the sleeps performed.  The
jitter factors `time.time() % 1` observed at each sleep are the abstract
input `jit` (each in `[0, 1)`); `useJitter` is the `jitter` flag. -/
inductive GenericRetryResult (α : Type) where
  | ok (v : α) (attempts : Nat) (delays : List ℚ)
  | err (msg : String) (attempts : Nat) (delays : List ℚ)
deriving DecidableEq

/-- Decimal digit character (Python integer formatting). -/
def digitChar (d : Nat) : Char :=
  if d = 0 then '0' else if d = 1 then '1' else if d = 2 then '2'
  else if d = 3 then '3' else if d = 4 then '4' else if d = 5 then '5'
  else if d = 6 then '6' else if d = 7 then '7' else if d = 8 then '8'
  else '9'

/-- Decimal digits of `n`, least significant first; `fuel` is a structural
bound on the number of digits (any `fuel > n` suffices). -/
def natDigitsRev : Nat → Nat → List Char
  | 0, _ => []
  | f + 1, n => if n < 10 then [digitChar n] else digitChar (n % 10) :: natDigitsRev f (n / 10)

/-- Python `str(n)` for a natural number. -/
def natRepr (n : Nat) : String := ⟨(natDigitsRev (n + 1) n).reverse⟩

/-- Value of a decimal digit character (inverse of `digitChar`). -/
def digitVal (c : Char) : Nat :=
  if c = '0' then 0 else if c = '1' then 1 else if c = '2' then 2
  else if c = '3' then 3 else if c = '4' then 4 else if c = '5' then 5
  else if c = '6' then 6 else if c = '7' then 7 else if c = '8' then 8
  else 9

/-- Value of a digit list, least significant first. -/
def revVal : List Char → Nat
  | [] => 0
  | c :: cs => digitVal c + 10 * revVal cs

/-- `retry_with_backoff`: `for attempt in range(max_retries)`, return on
success; on the last attempt raise
`RetryError(f"Failed after {max_retries} attempts: {e}")`; otherwise sleep
`min(base_delay * exponential_base**attempt, max_delay)`, scaled by
`1 + (time.time() % 1) * 0.1` when `jitter` is set, and retry.  `op j` is
the outcome of the `j`-th call of `func`. -/
def retryGo {α : Type} (op : Nat → Except String α) (max_retries : Nat)
    (base_delay max_delay exponential_base : ℚ) (jit : Nat → ℚ) (useJitter : Bool) :
    Nat → Nat → List ℚ → GenericRetryResult α
  | j, 0, delays => .err ("Failed after " ++ natRepr max_retries ++ " attempts") j delays
  | j, rem + 1, delays =>
    match op j with
    | .ok v => .ok v (j + 1) delays
    | .error e =>
      if j = max_retries - 1 then
        .err ("Failed after " ++ natRepr max_retries ++ " attempts: " ++ e) (j + 1) delays
      else
        let d := min (base_delay * exponential_base ^ j) max_delay
        let d := if useJitter then d * (1 + jit j * (1 / 10)) else d
        retryGo op max_retries base_delay max_delay exponential_base jit useJitter
          (j + 1) rem (delays ++ [d])

/-- `retry_with_backoff(func, max_retries, base_delay, max_delay,
exponential_base, jitter)`. -/
def retry_with_backoff {α : Type} (op : Nat → Except String α) (max_retries : Nat)
    (base_delay max_delay exponential_base : ℚ) (jit : Nat → ℚ) (useJitter : Bool) :
    GenericRetryResult α :=
  retryGo op max_retries base_delay max_delay exponential_base jit useJitter 0 max_retries []

/-! ## The orchestrator `generate_summary` (`ytsummarator.py`)

`generate_chunk_summary` catches every exception internally and returns
`""` on failure, so inside `generate_summary`'s chunk loop an attempt is
fully described by the returned string (the `except` branch of that loop
is unreachable for failures of the generation call itself).  The attempt
outcomes are the oracle `oracle i j` (chunk `i`, attempt `j`); the reducer
`generate_final_summary` likewise catches its own exceptions and returns
`None` on failure, modeled by the abstract `reducer`. -/

/-- First nonempty result of the attempts `js` (the `if summary: ... break`
loop). -/
def firstNonemptyAttempt (attempt : Nat → String) : List Nat → Option String
  | [] => none
  | j :: rest =>
    if attempt j = "" then firstNonemptyAttempt attempt rest else some (attempt j)

/-- The successful chunk summaries collected by `generate_summary`, in
chunk order (`intermediate_summaries`). -/
def collectSummaries (oracle : Nat → Nat → String) (max_retries n : Nat) : List String :=
  (List.range n).filterMap (fun i => firstNonemptyAttempt (oracle i) (List.range max_retries))

/-- `generate_summary(text, depth, model)`: chunk, summarize every chunk
(collecting nonempty summaries), return `None` if none succeeded, else call
`generate_final_summary` exactly once on the collected summaries.  The
second component counts the `generate_final_summary` invocations. -/
def generate_summary (enc : String → Nat) (max_tokens overlap_tokens : Nat) (text : String)
    (oracle : Nat → Nat → String) (max_retries : Nat)
    (reducer : List String → Option String) : Option String × Nat :=
  let chunks := chunk_transcript enc max_tokens overlap_tokens text
  let intermediate_summaries := collectSummaries oracle max_retries chunks.length
  if intermediate_summaries = [] then (none, 0)
  else (reducer intermediate_summaries, 1)

/-! ## The cache (`ytsummarator/services/cache.py`)

Files are modeled as a map from path to content; a JSON file holds the
JSON value `json.dump` wrote (Python's JSON text round-trips exactly for
these values, so the text layer is elided), a text file holds its string.
The in-memory `self.metadata` dict and its `cache_metadata.json`
persistence (`save_metadata`) are modeled as one component mapping keys to
`(timestamp, size)`; `time.time()` at write time is the parameter `now`,
and the `len(str(transcript))` size of a cached transcript is the abstract
`reprLen` (its value plays no role in any claim). -/

/-- One transcript segment `{text, start, duration}` (floats as exact
rationals). -/
structure TranscriptSegment where
  text : String
  start : ℚ
  duration : ℚ
deriving DecidableEq

/-- A JSON value (the fragment needed by the cache). -/
inductive Jval where
  | jstr (s : String)
  | jnum (q : ℚ)
  | jarr (l : List Jval)
  | jobj (l : List (String × Jval))

/-- JSON encoding of a segment, as `json.dump` writes it. -/
def encodeSegment (s : TranscriptSegment) : Jval :=
  .jobj [("text", .jstr s.text), ("start", .jnum s.start), ("duration", .jnum s.duration)]

/-- JSON encoding of a segment list. -/
def encodeSegments (l : List TranscriptSegment) : Jval :=
  .jarr (l.map encodeSegment)

/-- Parse one segment back from JSON. -/
def decodeSegment : Jval → Option TranscriptSegment
  | .jobj [("text", .jstr t), ("start", .jnum s), ("duration", .jnum d)] => some ⟨t, s, d⟩
  | _ => none

/-- Parse a list of segments. -/
def decodeSegList : List Jval → Option (List TranscriptSegment)
  | [] => some []
  | j :: rest =>
    match decodeSegment j, decodeSegList rest with
    | some s, some r => some (s :: r)
    | _, _ => none

/-- Parse a segment list back from JSON (`json.load` plus the shape the
cache stores). -/
def decodeSegments : Jval → Option (List TranscriptSegment)
  | .jarr l => decodeSegList l
  | _ => none

/-- Content of a cached file. -/
inductive FileContent where
  | jsonFile (j : Jval)
  | textFile (s : String)

/-- The cache's on-disk state plus its metadata dict. -/
structure CacheState where
  files : String → Option FileContent
  metadata : String → Option (ℚ × Nat)

/-- `get_transcript_path`: `os.path.join(cache_dir, "transcripts", f"{video_id}.json")`. -/
def get_transcript_path (cache_dir video_id : String) : String :=
  cache_dir ++ "/transcripts/" ++ video_id ++ ".json"

/-- `get_summary_path`:
`os.path.join(cache_dir, "summaries", f"{video_id}_{depth}_{model}.md")`. -/
def get_summary_path (cache_dir video_id depth model : String) : String :=
  cache_dir ++ "/summaries/" ++ video_id ++ "_" ++ depth ++ "_" ++ model ++ ".md"

/-- `has_transcript`. -/
def has_transcript (cache_dir : String) (st : CacheState) (video_id : String) : Bool :=
  (st.files (get_transcript_path cache_dir video_id)).isSome

/-- `has_summary`. -/
def has_summary (cache_dir : String) (st : CacheState) (video_id depth model : String) : Bool :=
  (st.files (get_summary_path cache_dir video_id depth model)).isSome

/-- `get_transcript`: `json.load` the cached file if present. -/
def get_transcript (cache_dir : String) (st : CacheState) (video_id : String) :
    Option (List TranscriptSegment) :=
  match st.files (get_transcript_path cache_dir video_id) with
  | some (.jsonFile j) => decodeSegments j
  | _ => none

/-- `get_summary`: read the cached summary text if present. -/
def get_summary (cache_dir : String) (st : CacheState) (video_id depth model : String) :
    Option String :=
  match st.files (get_summary_path cache_dir video_id depth model) with
  | some (.textFile s) => some s
  | _ => none

/-- `cache_transcript`: `json.dump` the segment list to the transcript
path, record metadata `{timestamp: time.time(), size: len(str(transcript))}`
under `transcript_{video_id}`, and save the metadata. -/
def cache_transcript (cache_dir : String) (st : CacheState) (video_id : String)
    (transcript : List TranscriptSegment) (now : ℚ)
    (reprLen : List TranscriptSegment → Nat) : CacheState :=
  { files := Function.update st.files (get_transcript_path cache_dir video_id)
      (some (.jsonFile (encodeSegments transcript))),
    metadata := Function.update st.metadata ("transcript_" ++ video_id)
      (some (now, reprLen transcript)) }

/-- `cache_summary`: write the summary text to the summary path, record
metadata `{timestamp: time.time(), size: len(summary)}` under
`summary_{video_id}_{depth}_{model}`, and save the metadata. -/
def cache_summary (cache_dir : String) (st : CacheState) (video_id depth model summary : String)
    (now : ℚ) : CacheState :=
  { files := Function.update st.files (get_summary_path cache_dir video_id depth model)
      (some (.textFile summary)),
    metadata := Function.update st.metadata
      ("summary_" ++ video_id ++ "_" ++ depth ++ "_" ++ model)
      (some (now, summary.length)) }

/-! ## Output-file versioning (`get_next_available_filename` in
`ytsummarator.py`)

The filesystem is modeled as the finite list of existing paths.  The
`while` loop terminates because the filesystem is finite; the fuel
`files.length + 1` suffices (proved below via injectivity of the versioned
names). -/

/-- `f"{base_filepath} ({counter}){extension}"`. -/
def versionedName (base_filepath extension : String) (n : Nat) : String :=
  base_filepath ++ " (" ++ natRepr n ++ ")" ++ extension

/-- The `while os.path.exists(...)` counter search, with explicit fuel. -/
def firstFreeCounter (files : List String) (mk : Nat → String) : Nat → Nat → Nat
  | 0, n => n
  | fuel + 1, n => if mk n ∈ files then firstFreeCounter files mk fuel (n + 1) else n

/-- `get_next_available_filename(base_filename, extension, output_dir)`:
return `output_dir/base_filename + extension` if that path does not exist,
else the first `output_dir/base_filename (n)extension` (n = 1, 2, ...) that
does not exist. -/
def get_next_available_filename (files : List String)
    (base_filename extension output_dir : String) : String :=
  let base_filepath := output_dir ++ "/" ++ base_filename
  if (base_filepath ++ extension) ∈ files then
    versionedName base_filepath extension
      (firstFreeCounter files (versionedName base_filepath extension) (files.length + 1) 1)
  else
    base_filepath ++ extension

/-! ## Loop invariant of the (instrumented) chunker -/

/-- Invariant of the sentence loop of `chunk_transcript`, on the
instrumented state, after processing the sentence list `processed`:

* `recon`: the emitted chunks' sentences followed by the pending sentences
  are exactly the processed sentences, in order;
* `chain`/`lastRel`/`emptyRel`/`headSeed`: every chunk's seed is the
  overlap derived from the chunk before it, the pending seed is the overlap
  of the last emitted chunk, and the first chunk has no seed;
* `doneBound`/`curSeedCnt`/`curBound`/`curNews`: every emitted chunk has a
  seed count within `ov` and a nonempty sentence list, and its recorded
  total is within `mx` unless it holds a single sentence. -/
structure ChunkInv (enc : String → Nat) (mx ov : Nat)
    (processed : List String) (st : IState) : Prop where
  recon : (st.done.map IChunk.news).flatten ++ st.news = processed
  chain : st.done.Chain' (fun a b => (b.seed, b.seedCnt) = overlapOf enc ov a)
  lastRel : ∀ x ∈ st.done.getLast?, (st.seed, st.seedCnt) = overlapOf enc ov x
  emptyRel : st.done = [] → st.seed = [] ∧ st.seedCnt = 0
  headSeed : ∀ x ∈ st.done.head?, x.seed = [] ∧ x.seedCnt = 0
  doneBound : ∀ ic ∈ st.done, ic.seedCnt ≤ ov ∧ ic.news ≠ [] ∧
      (ic.seedCnt + sumEnc enc ic.news ≤ mx ∨ ∃ s, ic.news = [s])
  curSeedCnt : st.seedCnt ≤ ov
  curBound : st.news = [] ∨ st.seedCnt + sumEnc enc st.news ≤ mx ∨ ∃ s, st.news = [s]
  curNews : st.news = [] → st.seed = [] ∧ st.seedCnt = 0

/-! # Theorems

## Basic lemmas about the string primitives -/

theorem dropSpaces_length_le (l : List Char) : (dropSpaces l).length ≤ l.length := by
  induction l with
  | nil => simp [dropSpaces]
  | cons c cs ih =>
    simp only [dropSpaces]
    split
    · exact Nat.le_succ_of_le ih
    · simp

theorem splitSentencesAux_ne_nil (l : List Char) :
    ∀ (acc : List Char) (b : Bool), splitSentencesAux l acc b ≠ [] := by
  induction l with
  | nil => intro acc b; simp [splitSentencesAux]
  | cons c cs ih =>
    intro acc b
    simp only [splitSentencesAux]
    split
    · split
      · exact ih acc true
      · exact ih [c] false
    · split
      · simp
      · exact ih (c :: acc) false

theorem splitSentences_ne_nil (s : String) : splitSentences s ≠ [] := by
  simpa [splitSentences] using splitSentencesAux_ne_nil s.data [] false

theorem sumEnc_append (enc : String → Nat) (a b : List String) :
    sumEnc enc (a ++ b) = sumEnc enc a + sumEnc enc b := by
  simp [sumEnc]

theorem chunkStep_toState (enc : String → Nat) (mx ov : Nat) (st : IState) (s : String) :
    chunkStep enc mx ov (st.toState enc) s = (ichunkStep enc mx ov st s).toState enc := by
  rcases st with ⟨done, seed, seedCnt, news⟩
  simp only [chunkStep, ichunkStep, IState.toState, overlapOf]
  split
  · simp_all [IState.toState, IChunk.toChunk, sumEnc, List.append_assoc]
  · simp_all [IState.toState, sumEnc, List.append_assoc, Nat.add_assoc]

theorem foldl_chunkStep_toState (enc : String → Nat) (mx ov : Nat) (l : List String)
    (st : IState) :
    l.foldl (chunkStep enc mx ov) (st.toState enc) =
      (l.foldl (ichunkStep enc mx ov) st).toState enc := by
  induction l generalizing st with
  | nil => rfl
  | cons s rest ih => simp only [List.foldl_cons, chunkStep_toState, ih]

theorem chunkFinish_toState (enc : String → Nat) (st : IState) :
    chunkFinish (st.toState enc) = (ichunkFinish st).map (IChunk.toChunk enc) := by
  rcases st with ⟨done, seed, seedCnt, news⟩
  simp only [chunkFinish, ichunkFinish, IState.toState]
  split <;> simp_all [IChunk.toChunk]

/-- `chunk_transcript` is the erasure of the instrumented chunker. -/
theorem chunk_ichunk (enc : String → Nat) (mx ov : Nat) (text : String) :
    chunk_transcript enc mx ov text =
      (ichunk_transcript enc mx ov text).map (IChunk.toChunk enc) := by
  have h0 : (⟨[], [], 0⟩ : ChunkState) = IState.toState enc ⟨[], [], 0, []⟩ := by
    simp [IState.toState, sumEnc]
  rw [chunk_transcript, ichunk_transcript, h0, foldl_chunkStep_toState, chunkFinish_toState]

/-! ## The chunker invariant holds -/

theorem overlapSelect_snd_le (enc : String → Nat) (ov : Nat) :
    ∀ (l : List String) (otext : String) (ocnt : Nat), ocnt ≤ ov →
      (overlapSelect enc ov l otext ocnt).2 ≤ ov := by
  intro l
  induction l with
  | nil => intro otext ocnt h; simpa [overlapSelect] using h
  | cons p rest ih =>
    intro otext ocnt h
    simp only [overlapSelect]
    split
    · exact ih _ _ (by assumption)
    · simpa using h

theorem overlapOf_snd_le (enc : String → Nat) (ov : Nat) (ic : IChunk) :
    (overlapOf enc ov ic).2 ≤ ov :=
  overlapSelect_snd_le enc ov _ "" 0 (Nat.zero_le ov)

theorem chunkInv_init (enc : String → Nat) (mx ov : Nat) :
    ChunkInv enc mx ov [] ⟨[], [], 0, []⟩ := by
  refine ⟨by simp, by simp, by simp, by simp, by simp, by simp, Nat.zero_le ov, by simp, by simp⟩

theorem chunkInv_step (enc : String → Nat) (mx ov : Nat) (processed : List String)
    (st : IState) (s : String) (h : ChunkInv enc mx ov processed st) :
    ChunkInv enc mx ov (processed ++ [s]) (ichunkStep enc mx ov st s) := by
  rcases st with ⟨done, seed, seedCnt, news⟩
  obtain ⟨recon, chain, lastRel, emptyRel, headSeed, doneBound, curSeedCnt, curBound, curNews⟩ := h
  dsimp only at recon chain lastRel emptyRel headSeed doneBound curSeedCnt curBound curNews
  simp only [ichunkStep]
  split
  · rename_i hc
    obtain ⟨hover, hne⟩ := hc
    have hnews : news ≠ [] := by
      intro hn
      rcases curNews hn with ⟨hs, _⟩
      simp [hs, hn] at hne
    refine ⟨?_, ?_, ?_, ?_, ?_, ?_, ?_, ?_, ?_⟩
    · simp only [List.map_append, List.map_cons, List.map_nil, List.flatten_append]
      simpa [List.append_assoc] using congrArg (fun l => l ++ [s]) recon
    · rw [List.chain'_append]
      refine ⟨chain, List.chain'_singleton _, ?_⟩
      intro x hx y hy
      simp only [List.head?_cons, Option.mem_def, Option.some.injEq] at hy
      subst hy
      simpa using lastRel x hx
    · intro x hx
      rw [List.getLast?_concat] at hx
      simp only [Option.mem_def, Option.some.injEq] at hx
      subst hx
      rfl
    · intro hd
      simp at hd
    · intro x hx
      cases done with
      | nil =>
        simp only [List.nil_append, List.head?_cons, Option.mem_def, Option.some.injEq] at hx
        subst hx
        exact emptyRel rfl
      | cons a t =>
        simp only [List.cons_append, List.head?_cons, Option.mem_def, Option.some.injEq] at hx
        subst hx
        exact headSeed a (by simp)
    · intro ic hic
      rcases List.mem_append.1 hic with hmem | hmem
      · exact doneBound ic hmem
      · simp only [List.mem_singleton] at hmem
        subst hmem
        refine ⟨curSeedCnt, hnews, ?_⟩
        rcases curBound with hb | hb | hb
        · exact absurd hb hnews
        · exact Or.inl hb
        · exact Or.inr hb
    · exact overlapOf_snd_le enc ov _
    · exact Or.inr (Or.inr ⟨s, rfl⟩)
    · intro hn
      simp at hn
  · rename_i hc
    rw [Classical.not_and_iff_or_not_not] at hc
    refine ⟨?_, chain, lastRel, emptyRel, headSeed, doneBound, curSeedCnt, ?_, ?_⟩
    · simpa [List.append_assoc] using congrArg (fun l => l ++ [s]) recon
    · rcases hc with hc | hc
      · have hle : seedCnt + sumEnc enc news + enc s ≤ mx := by omega
        refine Or.inr (Or.inl ?_)
        simpa [sumEnc_append, sumEnc, Nat.add_assoc] using hle
      · have : seed ++ news = [] := by
          by_contra hne
          exact hc hne
        have hn : news = [] := by
          rcases List.append_eq_nil.1 this with ⟨_, h2⟩
          exact h2
        subst hn
        exact Or.inr (Or.inr ⟨s, rfl⟩)
    · intro hn
      simp at hn

theorem chunkInv_foldl (enc : String → Nat) (mx ov : Nat) (l : List String)
    (processed : List String) (st : IState) (h : ChunkInv enc mx ov processed st) :
    ChunkInv enc mx ov (processed ++ l) (l.foldl (ichunkStep enc mx ov) st) := by
  induction l generalizing processed st with
  | nil => simpa using h
  | cons s rest ih =>
    have hstep := chunkInv_step enc mx ov processed st s h
    have := ih (processed ++ [s]) _ hstep
    simpa [List.append_assoc] using this

/-- The invariant, transported to the final chunk list of
`ichunk_transcript`. -/
theorem ichunk_props (enc : String → Nat) (mx ov : Nat) (text : String) :
    ((ichunk_transcript enc mx ov text).map IChunk.news).flatten = splitSentences text
    ∧ (ichunk_transcript enc mx ov text).Chain'
        (fun a b => (b.seed, b.seedCnt) = overlapOf enc ov a)
    ∧ (∀ x ∈ (ichunk_transcript enc mx ov text).head?, x.seed = [] ∧ x.seedCnt = 0)
    ∧ (∀ ic ∈ ichunk_transcript enc mx ov text, ic.seedCnt ≤ ov ∧ ic.news ≠ [] ∧
        (ic.seedCnt + sumEnc enc ic.news ≤ mx ∨ ∃ s, ic.news = [s])) := by
  have hinv := chunkInv_foldl enc mx ov (splitSentences text) [] ⟨[], [], 0, []⟩
    (chunkInv_init enc mx ov)
  simp only [List.nil_append] at hinv
  rw [ichunk_transcript]
  set st := (splitSentences text).foldl (ichunkStep enc mx ov) ⟨[], [], 0, []⟩ with hst
  rcases st with ⟨done, seed, seedCnt, news⟩
  obtain ⟨recon, chain, lastRel, emptyRel, headSeed, doneBound, curSeedCnt, curBound, curNews⟩ :=
    hinv
  dsimp only at recon chain lastRel emptyRel headSeed doneBound curSeedCnt curBound curNews
  simp only [ichunkFinish]
  split
  · rename_i hne
    have hnews : news ≠ [] := by
      intro hn
      rcases curNews hn with ⟨hs, _⟩
      simp [hs, hn] at hne
    refine ⟨?_, ?_, ?_, ?_⟩
    · simpa [List.flatten_append] using recon
    · rw [List.chain'_append]
      refine ⟨chain, List.chain'_singleton _, ?_⟩
      intro x hx y hy
      simp only [List.head?_cons, Option.mem_def, Option.some.injEq] at hy
      subst hy
      simpa using lastRel x hx
    · intro x hx
      cases done with
      | nil =>
        simp only [List.nil_append, List.head?_cons, Option.mem_def, Option.some.injEq] at hx
        subst hx
        exact emptyRel rfl
      | cons a t =>
        simp only [List.cons_append, List.head?_cons, Option.mem_def, Option.some.injEq] at hx
        subst hx
        exact headSeed a (by simp)
    · intro ic hic
      rcases List.mem_append.1 hic with hmem | hmem
      · exact doneBound ic hmem
      · simp only [List.mem_singleton] at hmem
        subst hmem
        refine ⟨curSeedCnt, hnews, ?_⟩
        rcases curBound with hb | hb | hb
        · exact absurd hb hnews
        · exact Or.inl hb
        · exact Or.inr hb
  · rename_i hne
    have hn : news = [] := by
      rcases List.append_eq_nil.1 (not_not.1 hne) with ⟨_, h2⟩
      exact h2
    subst hn
    refine ⟨by simpa using recon, chain, headSeed, doneBound⟩

/-- In a `Chain'` list, every element either satisfies the head property or
is related to some predecessor. -/
theorem chain'_head_or_rel {α : Type} (R : α → α → Prop) (P : α → Prop) :
    ∀ l : List α, l.Chain' R → (∀ x ∈ l.head?, P x) → (∀ a b, R a b → P b) →
      ∀ x ∈ l, P x := by
  intro l
  induction l with
  | nil => simp
  | cons a t ih =>
    intro hc hh hR x hx
    rcases List.mem_cons.1 hx with rfl | hx
    · exact hh x (by simp)
    · rcases List.chain'_cons'.1 hc with ⟨hhead, htail⟩
      exact ih htail (fun y hy => hR a y (hhead y hy)) hR x hx

/-- Every sentence of a chunk comes from the sentence split of the input. -/
theorem ichunk_news_mem (enc : String → Nat) (mx ov : Nat) (text : String)
    (ic : IChunk) (hic : ic ∈ ichunk_transcript enc mx ov text) :
    ∀ s ∈ ic.news, s ∈ splitSentences text := by
  intro s hs
  have hrec := (ichunk_props enc mx ov text).1
  rw [← hrec]
  exact List.mem_flatten.2 ⟨ic.news, List.mem_map_of_mem IChunk.news hic, hs⟩

/-! ## Lemmas for chunk counts (claim C4) -/

/-- If the cumulative token count stays within the budget, the loop never
splits. -/
theorem foldl_no_split (enc : String → Nat) (mx ov : Nat) :
    ∀ (l : List String) (chs : List Chunk) (cur : List String) (tok : Nat),
      tok + sumEnc enc l ≤ mx →
      l.foldl (chunkStep enc mx ov) ⟨chs, cur, tok⟩ = ⟨chs, cur ++ l, tok + sumEnc enc l⟩ := by
  intro l
  induction l with
  | nil => intro chs cur tok h; simp [sumEnc]
  | cons s rest ih =>
    intro chs cur tok h
    have hsum : sumEnc enc (s :: rest) = enc s + sumEnc enc rest := by simp [sumEnc]
    have hs : ¬ (tok + enc s > mx ∧ cur ≠ []) := by
      intro hc
      have := hc.1
      omega
    have hstep : chunkStep enc mx ov ⟨chs, cur, tok⟩ s = ⟨chs, cur ++ [s], tok + enc s⟩ := by
      simp [chunkStep, if_neg hs]
    rw [List.foldl_cons, hstep, ih chs (cur ++ [s]) (tok + enc s) (by omega)]
    simp [List.append_assoc, hsum]
    omega

/-- The loop state always has a nonempty `current_chunk` after at least one
sentence. -/
theorem foldl_cur_ne_nil (enc : String → Nat) (mx ov : Nat) :
    ∀ (l : List String) (st : ChunkState), l ≠ [] →
      (l.foldl (chunkStep enc mx ov) st).current_chunk ≠ [] := by
  intro l
  induction l with
  | nil => intro st h; exact absurd rfl h
  | cons s rest ih =>
    intro st _
    cases rest with
    | nil => simp [chunkStep]
    | cons t ts => exact ih _ (by simp)

/-- `chunk_transcript` never returns an empty list. -/
theorem chunk_transcript_ne_nil (enc : String → Nat) (mx ov : Nat) (text : String) :
    chunk_transcript enc mx ov text ≠ [] := by
  rw [chunk_transcript, chunkFinish]
  have hcur := foldl_cur_ne_nil enc mx ov (splitSentences text) ⟨[], [], 0⟩
    (splitSentences_ne_nil text)
  rw [if_pos hcur]
  simp

/-- On the empty input, `chunk_transcript` returns exactly one chunk with
empty text and the tokenizer's count of the empty string. -/
theorem chunk_transcript_empty (enc : String → Nat) (mx ov : Nat) :
    chunk_transcript enc mx ov "" = [⟨"", enc ""⟩] := by
  have hsent : splitSentences "" = [""] := by decide
  rw [chunk_transcript, hsent]
  simp [chunkStep, chunkFinish, pyJoin, joinSpace]

/-! ## Claim C2 — chunk token bound and sentence boundaries -/

/-- Claim C2 (amended): every chunk of `chunk_transcript` either records a
token count within `max_tokens`, or consists of an overlap seed (of
accumulated count at most `overlap_tokens`) followed by exactly one
sentence of the input, recording the seed count plus that sentence's count.
In particular the budget holds for every chunk as soon as every sentence
fits in `max_tokens - overlap_tokens`; an oversized chunk need not be a
single sentence, because the overlap seed is prepended to it. -/
theorem claim_C2_amended (enc : String → Nat) (mx ov : Nat) (text : String) :
    (∀ c ∈ chunk_transcript enc mx ov text,
      c.token_count ≤ mx ∨
        ∃ ic ∈ ichunk_transcript enc mx ov text, c = IChunk.toChunk enc ic ∧
          ∃ s ∈ splitSentences text, ic.news = [s] ∧ ic.seedCnt ≤ ov ∧
            c.token_count = ic.seedCnt + enc s) ∧
    ((∀ s ∈ splitSentences text, enc s + ov ≤ mx) →
      ∀ c ∈ chunk_transcript enc mx ov text, c.token_count ≤ mx) := by
  have hprops := ichunk_props enc mx ov text
  have hmain : ∀ c ∈ chunk_transcript enc mx ov text,
      c.token_count ≤ mx ∨
        ∃ ic ∈ ichunk_transcript enc mx ov text, c = IChunk.toChunk enc ic ∧
          ∃ s ∈ splitSentences text, ic.news = [s] ∧ ic.seedCnt ≤ ov ∧
            c.token_count = ic.seedCnt + enc s := by
    intro c hc
    rw [chunk_ichunk] at hc
    rcases List.mem_map.1 hc with ⟨ic, hic, rfl⟩
    rcases hprops.2.2.2 ic hic with ⟨hcnt, _, hb | ⟨s, hs⟩⟩
    · exact Or.inl hb
    · refine Or.inr ⟨ic, hic, rfl, s, ?_, hs, hcnt, ?_⟩
      · exact ichunk_news_mem enc mx ov text ic hic s (by simp [hs])
      · simp [IChunk.toChunk, hs, sumEnc]
  refine ⟨hmain, ?_⟩
  intro hall c hc
  rcases hmain c hc with h | ⟨ic, _, _, s, hsmem, _, hcnt, htok⟩
  · exact h
  · have := hall s hsmem
    omega

/-- Claim C2, counterexample to the claim as stated: with the word-count
tokenizer, budget 20 and overlap 2, the input below produces a middle chunk
recording 21 > 20 tokens whose text is not a single sentence of the input
(it is the overlap seed "a b." followed by the 19-word sentence), even
though every individual sentence fits the budget.  So an over-budget chunk
need not be a single sentence that alone exceeds the budget. -/
theorem claim_C2_counterexample :
    chunk_transcript wordCountTok 20 2 "a b. c d e f g h i j k l m n o p q r s t u. z." =
      [⟨"a b.", 2⟩, ⟨"a b. c d e f g h i j k l m n o p q r s t u.", 21⟩, ⟨"z.", 1⟩]
    ∧ 20 < 21
    ∧ splitSentences "a b. c d e f g h i j k l m n o p q r s t u. z." =
        ["a b.", "c d e f g h i j k l m n o p q r s t u.", "z."]
    ∧ "a b. c d e f g h i j k l m n o p q r s t u." ∉
        splitSentences "a b. c d e f g h i j k l m n o p q r s t u. z."
    ∧ (∀ s ∈ splitSentences "a b. c d e f g h i j k l m n o p q r s t u. z.",
        wordCountTok s ≤ 20) := by
  decide

/-- Witness for `claim_C2_amended` at a concrete input. -/
theorem claim_C2_witness :
    (∀ s ∈ splitSentences "a b. c d.", wordCountTok s + 1 ≤ 10) ∧
    (∀ c ∈ chunk_transcript wordCountTok 10 1 "a b. c d.", c.token_count ≤ 10) :=
  ⟨by decide, (claim_C2_amended wordCountTok 10 1 "a b. c d.").2 (by decide)⟩

/-! ## Claim C4 — chunk count -/

/-- Claim C4 (amended): `chunk_transcript` never returns zero chunks — even
the empty input yields the single chunk `{text: "", token_count: enc ""}` —
and it returns exactly one chunk whenever the sum of the per-sentence token
counts of the input is within `max_tokens` (the cumulative count the
algorithm actually compares against the budget). -/
theorem claim_C4_amended (enc : String → Nat) (mx ov : Nat) (text : String) :
    chunk_transcript enc mx ov text ≠ []
    ∧ (sumEnc enc (splitSentences text) ≤ mx →
        (chunk_transcript enc mx ov text).length = 1)
    ∧ chunk_transcript enc mx ov "" = [⟨"", enc ""⟩] := by
  refine ⟨chunk_transcript_ne_nil enc mx ov text, ?_, chunk_transcript_empty enc mx ov⟩
  intro hsum
  rw [chunk_transcript, foldl_no_split enc mx ov (splitSentences text) [] [] 0 (by omega)]
  rw [chunkFinish]
  rw [if_pos (by simpa using splitSentences_ne_nil text)]
  simp

/-- Claim C4, counterexample to the claim as stated: the empty input does
not yield zero chunks; it yields exactly one chunk (with empty text), so
"zero chunks iff the input is empty" fails. -/
theorem claim_C4_counterexample :
    chunk_transcript charCountTok 10 1 "" = [⟨"", 0⟩]
    ∧ ([⟨"", 0⟩] : List Chunk) ≠ []
    ∧ ("" : String).length = 0 := by
  decide

/-- Witness for `claim_C4_amended` at a concrete input. -/
theorem claim_C4_witness :
    (sumEnc wordCountTok (splitSentences "a b. c d.") ≤ 10) ∧
    (chunk_transcript wordCountTok 10 1 "a b. c d.").length = 1 :=
  ⟨by decide, (claim_C4_amended wordCountTok 10 1 "a b. c d.").2.1 (by decide)⟩

/-! ## Word-count lemmas (for claims C3 and C5)

`wordCountTok` is additive across single-space joins, so for it the
recorded `token_count` invariant can be settled exactly. -/

theorem wordCountTok_eq (s : String) :
    wordCountTok s = (splitWsCore s.data []).length := by
  simp [wordCountTok, pySplit]

theorem splitWsCore_append_space (b : List Char) :
    ∀ (a cur : List Char),
      splitWsCore (a ++ ' ' :: b) cur = splitWsCore a cur ++ splitWsCore b [] := by
  intro a
  induction a with
  | nil =>
    intro cur
    simp only [List.nil_append, splitWsCore]
    have hsp : isSpace ' ' = true := by decide
    rw [if_pos hsp]
    by_cases hcur : cur = []
    · simp [hcur]
    · simp [hcur]
  | cons c a' ih =>
    intro cur
    simp only [List.cons_append, splitWsCore, List.append_eq]
    by_cases hsp : isSpace c
    · rw [if_pos hsp, if_pos hsp]
      by_cases hcur : cur = []
      · simp [hcur, ih]
      · simp [hcur, ih]
    · rw [if_neg hsp, if_neg hsp, ih]

theorem splitWsCore_allspace :
    ∀ (sp : List Char), (∀ c ∈ sp, isSpace c = true) →
      ∀ cur, splitWsCore sp cur = if cur = [] then [] else [cur.reverse] := by
  intro sp
  induction sp with
  | nil => intro _ cur; rfl
  | cons c sp' ih =>
    intro h cur
    have hc : isSpace c = true := h c (by simp)
    have h' : ∀ x ∈ sp', isSpace x = true := fun x hx => h x (by simp [hx])
    simp only [splitWsCore, if_pos hc]
    by_cases hcur : cur = []
    · simp [hcur, ih h']
    · simp [hcur, ih h']

theorem splitWsCore_append_spaces (sp : List Char) (hsp : ∀ c ∈ sp, isSpace c = true) :
    ∀ (x cur : List Char), splitWsCore (x ++ sp) cur = splitWsCore x cur := by
  intro x
  induction x with
  | nil =>
    intro cur
    simp only [List.nil_append, splitWsCore]
    exact splitWsCore_allspace sp hsp cur
  | cons c x' ih =>
    intro cur
    simp only [List.cons_append, splitWsCore, List.append_eq]
    by_cases hc : isSpace c
    · rw [if_pos hc, if_pos hc]
      by_cases hcur : cur = []
      · simp [hcur, ih]
      · simp [hcur, ih]
    · rw [if_neg hc, if_neg hc, ih]

theorem splitWsCore_dropSpaces :
    ∀ l : List Char, splitWsCore (dropSpaces l) [] = splitWsCore l [] := by
  intro l
  induction l with
  | nil => rfl
  | cons c cs ih =>
    by_cases hc : isSpace c
    · have h1 : dropSpaces (c :: cs) = dropSpaces cs := by simp [dropSpaces, hc]
      have h2 : splitWsCore (c :: cs) [] = splitWsCore cs [] := by simp [splitWsCore, hc]
      rw [h1, h2, ih]
    · simp [dropSpaces, hc]

theorem dropSpaces_decomp :
    ∀ l : List Char, ∃ sp, l = sp ++ dropSpaces l ∧ ∀ c ∈ sp, isSpace c = true := by
  intro l
  induction l with
  | nil => exact ⟨[], by simp [dropSpaces]⟩
  | cons c cs ih =>
    by_cases hc : isSpace c
    · rcases ih with ⟨sp, heq, hall⟩
      refine ⟨c :: sp, ?_, ?_⟩
      · simp only [dropSpaces, if_pos hc, List.cons_append]
        exact congrArg (c :: ·) heq
      · intro x hx
        rcases List.mem_cons.1 hx with rfl | hx
        · exact hc
        · exact hall x hx
    · exact ⟨[], by simp [dropSpaces, if_neg hc]⟩

theorem wordCount_pyStrip (s : String) :
    wordCountTok (pyStrip s) = wordCountTok s := by
  rcases dropSpaces_decomp (dropSpaces s.data).reverse with ⟨sp, heq, hall⟩
  have hcore : dropSpaces s.data =
      (dropSpaces (dropSpaces s.data).reverse).reverse ++ sp.reverse := by
    have := congrArg List.reverse heq
    simpa [List.reverse_append] using this
  have hallrev : ∀ c ∈ sp.reverse, isSpace c = true := by
    intro c hc
    exact hall c (List.mem_reverse.1 hc)
  have h1 : wordCountTok (pyStrip s) =
      (splitWsCore (dropSpaces (dropSpaces s.data).reverse).reverse []).length := by
    rw [wordCountTok_eq]
    rfl
  rw [h1, ← splitWsCore_append_spaces sp.reverse hallrev, ← hcore, splitWsCore_dropSpaces,
    wordCountTok_eq]

theorem splitWsCore_no_space :
    ∀ (w cur : List Char), (∀ c ∈ w, isSpace c = false) →
      splitWsCore w cur = if cur.reverse ++ w = [] then [] else [cur.reverse ++ w] := by
  intro w
  induction w with
  | nil =>
    intro cur _
    simp [splitWsCore]
  | cons c w' ih =>
    intro cur h
    have hc : isSpace c = false := h c (by simp)
    have h' : ∀ x ∈ w', isSpace x = false := fun x hx => h x (by simp [hx])
    simp only [splitWsCore, hc, Bool.false_eq_true, if_false]
    rw [ih (c :: cur) h']
    simp

theorem splitWsCore_mem_words :
    ∀ (l cur : List Char), (∀ c ∈ cur, isSpace c = false) →
      ∀ w ∈ splitWsCore l cur, w ≠ [] ∧ ∀ c ∈ w, isSpace c = false := by
  intro l
  induction l with
  | nil =>
    intro cur hcur w hw
    simp only [splitWsCore] at hw
    split at hw
    · simp at hw
    · rename_i hne
      simp only [List.mem_singleton] at hw
      subst hw
      refine ⟨by simpa using hne, ?_⟩
      intro c hc
      exact hcur c (List.mem_reverse.1 hc)
  | cons c cs ih =>
    intro cur hcur w hw
    simp only [splitWsCore] at hw
    by_cases hc : isSpace c
    · rw [if_pos hc] at hw
      by_cases hcu : cur = []
      · rw [if_pos hcu] at hw
        exact ih [] (by simp) w hw
      · rw [if_neg hcu] at hw
        rcases List.mem_cons.1 hw with rfl | hw
        · refine ⟨by simpa using hcu, ?_⟩
          intro x hx
          exact hcur x (List.mem_reverse.1 hx)
        · exact ih [] (by simp) w hw
    · rw [if_neg hc] at hw
      refine ih (c :: cur) ?_ w hw
      intro x hx
      rcases List.mem_cons.1 hx with rfl | hx
      · simpa using hc
      · exact hcur x hx

theorem sumEnc_wordCount_pySplit (s : String) :
    sumEnc wordCountTok (pySplit s) = wordCountTok s := by
  have hone : ∀ w ∈ splitWsCore s.data [], wordCountTok ⟨w⟩ = 1 := by
    intro w hw
    rcases splitWsCore_mem_words s.data [] (by simp) w hw with ⟨hne, hns⟩
    rw [wordCountTok_eq]
    show (splitWsCore w []).length = 1
    rw [splitWsCore_no_space w [] hns]
    simp [hne]
  rw [wordCountTok_eq]
  show (List.map wordCountTok
    ((splitWsCore s.data []).map (fun cs => (⟨cs⟩ : String)))).sum = _
  rw [List.map_map]
  rw [show (List.map (wordCountTok ∘ fun cs => (⟨cs⟩ : String)) (splitWsCore s.data [])) =
      List.map (fun _ => (1 : Nat)) (splitWsCore s.data []) from
    List.map_congr_left (fun w hw => hone w hw)]
  simp [List.map_const]

theorem wordCount_append_space (a b : String) :
    wordCountTok (a ++ " " ++ b) = wordCountTok a + wordCountTok b := by
  rw [wordCountTok_eq, wordCountTok_eq, wordCountTok_eq]
  have hd : (a ++ " " ++ b).data = a.data ++ ' ' :: b.data := by
    show (a.data ++ ' ' :: []) ++ b.data = a.data ++ ' ' :: b.data
    simp
  rw [hd, splitWsCore_append_space b.data a.data []]
  simp

theorem overlapSelect_wordCount (ov : Nat) :
    ∀ (l : List String) (otext : String) (ocnt : Nat), wordCountTok otext = ocnt →
      wordCountTok (overlapSelect wordCountTok ov l otext ocnt).1 =
        (overlapSelect wordCountTok ov l otext ocnt).2 := by
  intro l
  induction l with
  | nil => intro otext ocnt h; simpa [overlapSelect] using h
  | cons p rest ih =>
    intro otext ocnt h
    simp only [overlapSelect]
    split
    · exact ih _ _ (by rw [wordCount_append_space, h, Nat.add_comm])
    · simpa using h

theorem wordCount_pyJoin :
    ∀ parts : List String, wordCountTok (pyJoin parts) = sumEnc wordCountTok parts := by
  intro parts
  induction parts with
  | nil => rfl
  | cons w ws ih =>
    cases ws with
    | nil =>
      show wordCountTok (pyJoin [w]) = sumEnc wordCountTok [w]
      have : pyJoin [w] = w := by
        show (⟨joinSpace [w.data]⟩ : String) = w
        rfl
      rw [this]
      simp [sumEnc]
    | cons w' ws' =>
      have hdata : (pyJoin (w :: w' :: ws')).data =
          w.data ++ ' ' :: (pyJoin (w' :: ws')).data := by
        simp [pyJoin, joinSpace]
      have h1 : wordCountTok (pyJoin (w :: w' :: ws')) =
          (splitWsCore (w.data ++ ' ' :: (pyJoin (w' :: ws')).data) []).length := by
        rw [wordCountTok_eq, hdata]
      rw [h1, splitWsCore_append_space]
      have hsum : sumEnc wordCountTok (w :: w' :: ws') =
          wordCountTok w + sumEnc wordCountTok (w' :: ws') := by
        simp [sumEnc]
      rw [hsum, ← ih, wordCountTok_eq, wordCountTok_eq]
      simp

/-- Under the word-count tokenizer, every chunk's recorded seed count is
the total word count of its seed words. -/
theorem ichunk_seedCnt_wordCount (mx ov : Nat) (text : String) :
    ∀ ic ∈ ichunk_transcript wordCountTok mx ov text,
      ic.seedCnt = sumEnc wordCountTok ic.seed := by
  have hprops := ichunk_props wordCountTok mx ov text
  refine chain'_head_or_rel (fun a b => (b.seed, b.seedCnt) = overlapOf wordCountTok ov a)
    (fun ic => ic.seedCnt = sumEnc wordCountTok ic.seed) _ hprops.2.1 ?_ ?_
  · intro x hx
    rcases hprops.2.2.1 x hx with ⟨hs, hc⟩
    rw [hs, hc]
    simp [sumEnc]
  · intro a b hab
    have h1 : b.seed = (overlapOf wordCountTok ov a).1 := congrArg Prod.fst hab
    have h2 : b.seedCnt = (overlapOf wordCountTok ov a).2 := congrArg Prod.snd hab
    rw [h1, h2, overlapOf]
    rw [sumEnc_wordCount_pySplit, wordCount_pyStrip]
    exact (overlapSelect_wordCount ov _ "" 0 rfl).symm

/-! ## Claim C5 — the recorded token count of a chunk -/

/-- Claim C5 (amended): the recorded `token_count` of a chunk is the
accumulated overlap-seed count plus the sum of the per-sentence token
counts of its sentences — each part tokenized separately — not the count
obtained by tokenizing the chunk's joined text.  For a tokenizer that is
additive across whitespace joining (such as the word-count tokenizer) the
two agree and the claimed invariant holds exactly. -/
theorem claim_C5_amended (enc : String → Nat) (mx ov : Nat) (text : String) :
    (∀ c ∈ chunk_transcript enc mx ov text,
      ∃ ic ∈ ichunk_transcript enc mx ov text,
        c.text = pyJoin (ic.seed ++ ic.news) ∧
        c.token_count = ic.seedCnt + sumEnc enc ic.news) ∧
    (∀ c ∈ chunk_transcript wordCountTok mx ov text,
      c.token_count = wordCountTok c.text) := by
  constructor
  · intro c hc
    rw [chunk_ichunk] at hc
    rcases List.mem_map.1 hc with ⟨ic, hic, rfl⟩
    exact ⟨ic, hic, rfl, rfl⟩
  · intro c hc
    rw [chunk_ichunk] at hc
    rcases List.mem_map.1 hc with ⟨ic, hic, rfl⟩
    show ic.seedCnt + sumEnc wordCountTok ic.news = wordCountTok (pyJoin (ic.seed ++ ic.news))
    rw [wordCount_pyJoin, sumEnc_append, ichunk_seedCnt_wordCount mx ov text ic hic]

/-- Claim C5, counterexample to the claim as stated: with the
character-count tokenizer, a chunk made of the two sentences "ab." and
"cd." records `token_count = 6` (the two sentences tokenized separately),
but tokenizing its text "ab. cd." gives 7 — the recorded count is not the
token count of the chunk's text. -/
theorem claim_C5_counterexample :
    chunk_transcript charCountTok 100 10 "ab. cd." = [⟨"ab. cd.", 6⟩]
    ∧ charCountTok "ab. cd." = 7
    ∧ (6 : Nat) ≠ 7 := by
  decide

/-! ## Claim C3 — overlap structure and reconstruction -/

/-- Claim C3 (amended): `chunk_transcript` is the erasure of the
instrumented chunker, in which (i) every chunk after the first starts with
the overlap seed computed greedily from the end of the previous chunk's
element list — a seed of *words* (whitespace-normalized, and possibly a
word-level suffix reaching into the previous chunk's own seed), not
necessarily of verbatim whole sentences; (ii) the first chunk has no seed;
and (iii) stripping the seeds, the chunks' sentence lists concatenate to
exactly the sentence split of the input, in order, with no sentence
dropped or duplicated. -/
theorem claim_C3_amended (enc : String → Nat) (mx ov : Nat) (text : String) :
    chunk_transcript enc mx ov text =
      (ichunk_transcript enc mx ov text).map (IChunk.toChunk enc)
    ∧ ((ichunk_transcript enc mx ov text).map IChunk.news).flatten = splitSentences text
    ∧ (ichunk_transcript enc mx ov text).Chain'
        (fun a b => (b.seed, b.seedCnt) = overlapOf enc ov a)
    ∧ (∀ x ∈ (ichunk_transcript enc mx ov text).head?, x.seed = []) := by
  have hprops := ichunk_props enc mx ov text
  exact ⟨chunk_ichunk enc mx ov text, hprops.1, hprops.2.1,
    fun x hx => (hprops.2.2.1 x hx).1⟩

/-- Claim C3, counterexample to the claim as stated: the trailing sentence
"a  b." of the first chunk fits entirely within the overlap budget, so the
claimed verbatim overlap would make the second chunk start with "a  b.";
but the second chunk's text is "a b. c." (the overlap is re-split into
words and re-joined with single spaces), which does not start with the
verbatim sentence. -/
theorem claim_C3_counterexample :
    splitSentences "a  b. c." = ["a  b.", "c."]
    ∧ chunk_transcript charCountTok 6 8 "a  b. c." = [⟨"a  b.", 5⟩, ⟨"a b. c.", 7⟩]
    ∧ charCountTok "a  b." ≤ 8
    ∧ lstartsWith "a  b.".data "a b. c.".data = false := by
  decide

/-! ## Claims C1 and C7 — the orchestrator `generate_summary` -/

theorem firstNonemptyAttempt_eq_none_iff (f : Nat → String) :
    ∀ js : List Nat, firstNonemptyAttempt f js = none ↔ ∀ j ∈ js, f j = "" := by
  intro js
  induction js with
  | nil => simp [firstNonemptyAttempt]
  | cons j rest ih =>
    simp only [firstNonemptyAttempt]
    by_cases hj : f j = ""
    · simp [hj, ih]
    · simp [hj]

theorem collectSummaries_eq_nil_iff (oracle : Nat → Nat → String) (mr n : Nat) :
    collectSummaries oracle mr n = [] ↔ ∀ i < n, ∀ j < mr, oracle i j = "" := by
  rw [collectSummaries, List.filterMap_eq_nil_iff]
  constructor
  · intro h i hi j hj
    have := h i (List.mem_range.2 hi)
    rw [firstNonemptyAttempt_eq_none_iff] at this
    exact this j (List.mem_range.2 hj)
  · intro h i hi
    rw [firstNonemptyAttempt_eq_none_iff]
    intro j hj
    exact h i (List.mem_range.1 hi) j (List.mem_range.1 hj)

/-- Claim C7 (confirmed): if at least one chunk summarization succeeds
(returns a nonempty summary within the retry budget), `generate_summary`
proceeds to the reduction with exactly the successful summaries, in chunk
order, and the job's result is the reducer's output; if every chunk fails,
the job returns `None` before any reduction call. -/
theorem claim_C7 (enc : String → Nat) (mx ov : Nat) (text : String)
    (oracle : Nat → Nat → String) (mr : Nat) (reducer : List String → Option String) :
    ((∃ i < (chunk_transcript enc mx ov text).length, ∃ j < mr, oracle i j ≠ "") →
      generate_summary enc mx ov text oracle mr reducer =
        (reducer (collectSummaries oracle mr (chunk_transcript enc mx ov text).length), 1))
    ∧ ((∀ i < (chunk_transcript enc mx ov text).length, ∀ j < mr, oracle i j = "") →
      generate_summary enc mx ov text oracle mr reducer = (none, 0)) := by
  constructor
  · intro hex
    have hne : collectSummaries oracle mr (chunk_transcript enc mx ov text).length ≠ [] := by
      rw [Ne, collectSummaries_eq_nil_iff]
      intro hall
      rcases hex with ⟨i, hi, j, hj, hne⟩
      exact hne (hall i hi j hj)
    rw [generate_summary]
    simp only [if_neg hne]
  · intro hall
    have hnil : collectSummaries oracle mr (chunk_transcript enc mx ov text).length = [] :=
      (collectSummaries_eq_nil_iff oracle mr _).2 hall
    rw [generate_summary]
    simp only [if_pos hnil]

/-- Witness for `claim_C7` at a concrete input: two chunks, the first
succeeding on its second attempt, the second failing every attempt — the
reduction still runs, on the single successful summary. -/
theorem claim_C7_witness :
    (∃ i < (chunk_transcript charCountTok 4 0 "aa. bb.").length,
      ∃ j < 3, (fun i j => if i = 0 ∧ j = 1 then "A" else "") i j ≠ "")
    ∧ generate_summary charCountTok 4 0 "aa. bb."
        (fun i j => if i = 0 ∧ j = 1 then "A" else "") 3 (fun l => some (pyJoin l)) =
      ((fun l => some (pyJoin l))
        (collectSummaries (fun i j => if i = 0 ∧ j = 1 then "A" else "") 3
          (chunk_transcript charCountTok 4 0 "aa. bb.").length), 1) :=
  ⟨⟨0, by decide, 1, by decide, by decide⟩,
    (claim_C7 charCountTok 4 0 "aa. bb." (fun i j => if i = 0 ∧ j = 1 then "A" else "") 3
      (fun l => some (pyJoin l))).1 ⟨0, by decide, 1, by decide, by decide⟩⟩

/-- Claim C1 (amended): even when exactly one chunk summary is collected —
in particular when the chunker produced exactly one chunk — `generate_summary`
still invokes the reducer (`generate_final_summary`), a second
text-generation call, exactly once, and the job's result is the reducer's
output on the singleton list, not the chunk summary itself. -/
theorem claim_C1_amended (enc : String → Nat) (mx ov : Nat) (text : String)
    (oracle : Nat → Nat → String) (mr : Nat) (reducer : List String → Option String)
    (s0 : String)
    (h : collectSummaries oracle mr (chunk_transcript enc mx ov text).length = [s0]) :
    generate_summary enc mx ov text oracle mr reducer = (reducer [s0], 1) := by
  rw [generate_summary]
  simp [h]

/-- Claim C1, counterexample to the claim as stated: a single-chunk input
whose chunk summary is "S" and whose reducer returns "R" yields final
summary "R" with one reducer invocation — the reducer is *not* bypassed
and the single chunk's summary is *not* returned as the final summary. -/
theorem claim_C1_counterexample :
    (chunk_transcript charCountTok 100 10 "hello.").length = 1
    ∧ generate_summary charCountTok 100 10 "hello." (fun _ _ => "S") 4 (fun _ => some "R") =
        (some "R", 1)
    ∧ (some "R" : Option String) ≠ some "S"
    ∧ (1 : Nat) ≠ 0 := by
  decide

/-- Witness for `claim_C1_amended` at a concrete input. -/
theorem claim_C1_witness :
    collectSummaries (fun _ _ => "S") 4 (chunk_transcript charCountTok 100 10 "hi.").length = ["S"]
    ∧ generate_summary charCountTok 100 10 "hi." (fun _ _ => "S") 4
        (fun l => some (pyJoin l)) = (some (pyJoin ["S"]), 1) :=
  ⟨by decide,
    claim_C1_amended charCountTok 100 10 "hi." (fun _ _ => "S") 4
      (fun l => some (pyJoin l)) "S" (by decide)⟩

/-! ## Claim C6 — the retry controllers -/

theorem retryGo_always_error {α : Type} (op : Nat → Except String α) (mr : Nat)
    (base maxd : ℚ) (jit : Nat → ℚ) (e : Nat → String)
    (hop : ∀ j, op j = .error (e j)) :
    ∀ (rem j : Nat) (delays : List ℚ), j + rem = mr → 1 ≤ rem →
      retryGo op mr base maxd 2 jit true j rem delays =
        .err ("Failed after " ++ natRepr mr ++ " attempts: " ++ e (mr - 1)) mr
          (delays ++ (List.range' j (rem - 1)).map
            (fun i => min (base * 2 ^ i) maxd * (1 + jit i * (1 / 10)))) := by
  intro rem
  induction rem with
  | zero => intro j delays _ h1; omega
  | succ r ih =>
    intro j delays hsum _
    rw [retryGo, hop j]
    dsimp only
    cases r with
    | zero =>
      have hj : j = mr - 1 := by omega
      rw [if_pos hj, hj]
      have hmr1 : mr - 1 + 1 = mr := by omega
      rw [hmr1]
      simp
    | succ r' =>
      have hj : j ≠ mr - 1 := by omega
      rw [if_neg hj]
      rw [ih (j + 1) (delays ++ [if true = true then min (base * 2 ^ j) maxd * (1 + jit j * (1 / 10))
          else min (base * 2 ^ j) maxd]) (by omega) (by omega)]
      have hr : List.range' j (r' + 1 + 1 - 1) =
          j :: List.range' (j + 1) (r' + 1 - 1) := by
        have h2 : r' + 1 + 1 - 1 = (r' + 1 - 1) + 1 := by omega
        rw [h2, List.range'_succ]
      rw [hr]
      simp [List.append_assoc]

theorem chunkRetryGo_always_ratelimited (op : Nat → AttemptOutcome) (mr : Nat) (base : ℚ)
    (m : String) (hsig : rateLimitSig m = true) (hop : ∀ j, op j = .raised m) :
    ∀ (rem j : Nat) (delays : List ℚ), j + rem = mr → 1 ≤ rem →
      chunkRetryGo op mr base j rem delays =
        .exhausted m mr
          (delays ++ (if 0 < j then [base * (3 / 2) ^ (j - 1)] else []) ++
            (List.range' j (rem - 1)).flatMap
              (fun i => [base * 2 ^ i, base * (3 / 2) ^ i])) := by
  intro rem
  induction rem with
  | zero => intro j delays _ h1; omega
  | succ r ih =>
    intro j delays hsum _
    rw [chunkRetryGo, hop j]
    dsimp only
    rw [if_pos hsig]
    cases r with
    | zero =>
      have hj : j = mr - 1 := by omega
      rw [if_pos hj]
      have hmr1 : j + 1 = mr := by omega
      rw [hmr1]
      by_cases h0 : 0 < j
      · simp [h0]
      · simp [h0]
    | succ r' =>
      have hj : j ≠ mr - 1 := by omega
      rw [if_neg hj]
      rw [ih (j + 1)
        ((if 0 < j then delays ++ [base * (3 / 2) ^ (j - 1)] else delays) ++ [base * 2 ^ j])
        (by omega) (by omega)]
      have hr : List.range' j (r' + 1 + 1 - 1) =
          j :: List.range' (j + 1) (r' + 1 - 1) := by
        have h2 : r' + 1 + 1 - 1 = (r' + 1 - 1) + 1 := by omega
        rw [h2, List.range'_succ]
      rw [hr]
      have h0succ : 0 < j + 1 := Nat.succ_pos j
      by_cases h0 : 0 < j
      · simp [h0, h0succ, List.append_assoc, List.flatMap_cons]
      · simp [h0, h0succ, List.append_assoc, List.flatMap_cons]

/-- Claim C6 (amended): two distinct retry controllers exist.  (i) The
generic `retry_with_backoff` run on an always-failing operation performs
exactly `max_retries` attempts and raises a `RetryError` whose message
carries the attempt count and the last error's message, but its delay
before the `k`-th retry is `min(base_delay * 2^(k-1), max_delay)` —
*capped* by `max_delay`, then scaled by the jitter factor — not the
unbounded `base_delay * 2^(k-1)`.  (ii) The rate-limit path of
`generate_summary`'s chunk retry loop performs exactly `max_retries`
attempts and then re-raises the underlying error (no `RetryError`); its
sleeps are uncapped, but each retry `k ≥ 1` is preceded by *two* sleeps,
`base_delay * 2^(k-1)` (the rate-limit sleep) followed by
`base_delay * 1.5^(k-1)` (the unconditional top-of-loop sleep). -/
theorem claim_C6_amended :
    (∀ (α : Type) (op : Nat → Except String α) (mr : Nat) (base maxd : ℚ)
        (jit : Nat → ℚ) (e : Nat → String), 1 ≤ mr → (∀ j, op j = .error (e j)) →
      retry_with_backoff op mr base maxd 2 jit true =
        .err ("Failed after " ++ natRepr mr ++ " attempts: " ++ e (mr - 1)) mr
          ((List.range (mr - 1)).map
            (fun i => min (base * 2 ^ i) maxd * (1 + jit i * (1 / 10)))))
    ∧ (∀ (op : Nat → AttemptOutcome) (mr : Nat) (base : ℚ) (m : String),
        1 ≤ mr → rateLimitSig m = true → (∀ j, op j = .raised m) →
      chunkRetryLoop op mr base =
        .exhausted m mr
          ((List.range (mr - 1)).flatMap
            (fun i => [base * 2 ^ i, base * (3 / 2) ^ i]))) := by
  constructor
  · intro α op mr base maxd jit e hmr hop
    rw [retry_with_backoff,
      retryGo_always_error op mr base maxd jit e hop mr 0 [] (by omega) hmr]
    rw [List.range_eq_range']
    simp
  · intro op mr base m hmr hsig hop
    rw [chunkRetryLoop,
      chunkRetryGo_always_ratelimited op mr base m hsig hop mr 0 [] (by omega) hmr]
    rw [List.range_eq_range']
    simp

/-- Claim C6, counterexample to the claim as stated: `retry_with_backoff`
called on an operation that always raises a rate-limit-signature error
(with `max_retries = 6`, `base_delay = 1` and the default
`max_delay = 10`, `exponential_base = 2`, jitter off) performs its sleeps
as `[1, 2, 4, 8, 10]`: the delay before the 5th retry is capped at
`max_delay = 10`, not `base_delay * 2^4 = 16` — the claimed delay formula
with "no upper bound other than maxRetries" is false for this controller. -/
theorem claim_C6_counterexample :
    rateLimitSig "Rate limit exceeded" = true
    ∧ retry_with_backoff (fun _ => (Except.error "Rate limit exceeded" : Except String Nat))
        6 1 10 2 (fun _ => 0) false =
      .err "Failed after 6 attempts: Rate limit exceeded" 6 [1, 2, 4, 8, 10]
    ∧ ((10 : ℚ) ≠ 1 * 2 ^ 4) := by
  refine ⟨by decide, ?_, by norm_num⟩
  rw [retry_with_backoff]
  norm_num [retryGo, min_def]
  decide

/-- Witness for `claim_C6_amended` at concrete inputs. -/
theorem claim_C6_witness :
    ((1 : Nat) ≤ 3)
    ∧ (∀ j : Nat, (fun _ => (Except.error "rate limit" : Except String Nat)) j =
        .error ((fun _ => "rate limit") j))
    ∧ retry_with_backoff (fun _ => (Except.error "rate limit" : Except String Nat))
        3 1 10 2 (fun _ => 0) true =
      .err ("Failed after " ++ natRepr 3 ++ " attempts: " ++ (fun _ => "rate limit") (3 - 1)) 3
        ((List.range (3 - 1)).map
          (fun i => min ((1 : ℚ) * 2 ^ i) 10 * (1 + (fun _ => (0 : ℚ)) i * (1 / 10))))
    ∧ rateLimitSig "rate limit" = true
    ∧ chunkRetryLoop (fun _ => .raised "rate limit") 3 1 =
        .exhausted "rate limit" 3
          ((List.range (3 - 1)).flatMap (fun i => [(1 : ℚ) * 2 ^ i, 1 * (3 / 2) ^ i])) :=
  ⟨by norm_num, fun _ => rfl,
    claim_C6_amended.1 Nat (fun _ => (Except.error "rate limit" : Except String Nat))
      3 1 10 (fun _ => 0) (fun _ => "rate limit") (by norm_num) (fun _ => rfl),
    by decide,
    claim_C6_amended.2 (fun _ => .raised "rate limit") 3 1 "rate limit"
      (by norm_num) (by decide) (fun _ => rfl)⟩

/-! ## Claim C8 — chunk-parameter derivation -/

/-- Claim C8 (confirmed): for every model identifier, the derived
parameters are `maxChunkTokens = min(contextWindow - 1000,
floor(contextWindow * 0.4))` and `overlapTokens = floor(maxChunkTokens *
0.1)` (stated via integer floor division in `spec_chunk_parameters`), with
`contextWindow` the per-model constant of the lookup table and 4096 for
any unrecognized identifier — the lookup is total. -/
theorem claim_C8 (model : String) :
    get_chunk_parameters model = spec_chunk_parameters (get_model_context_window model)
    ∧ (model ∉ (["gpt-4-turbo", "gpt-4", "gpt-4-32k", "gpt-3.5-turbo",
        "gpt-3.5-turbo-16k"] : List String) →
      get_model_context_window model = 4096) := by
  by_cases h1 : model = "gpt-4-turbo"
  · subst h1
    refine ⟨?_, fun h => absurd (by decide) h⟩
    rw [get_chunk_parameters, show get_model_context_window "gpt-4-turbo" = 128000 from by decide]
    norm_num [spec_chunk_parameters]
  · by_cases h2 : model = "gpt-4"
    · subst h2
      refine ⟨?_, fun h => absurd (by decide) h⟩
      rw [get_chunk_parameters, show get_model_context_window "gpt-4" = 8192 from by decide]
      norm_num [spec_chunk_parameters]
    · by_cases h3 : model = "gpt-4-32k"
      · subst h3
        refine ⟨?_, fun h => absurd (by decide) h⟩
        rw [get_chunk_parameters, show get_model_context_window "gpt-4-32k" = 32768 from by decide]
        norm_num [spec_chunk_parameters]
      · by_cases h4 : model = "gpt-3.5-turbo"
        · subst h4
          refine ⟨?_, fun h => absurd (by decide) h⟩
          rw [get_chunk_parameters,
            show get_model_context_window "gpt-3.5-turbo" = 4096 from by decide]
          norm_num [spec_chunk_parameters]
        · by_cases h5 : model = "gpt-3.5-turbo-16k"
          · subst h5
            refine ⟨?_, fun h => absurd (by decide) h⟩
            rw [get_chunk_parameters,
              show get_model_context_window "gpt-3.5-turbo-16k" = 16385 from by decide]
            norm_num [spec_chunk_parameters]
          · have hcw : get_model_context_window model = 4096 := by
              simp [get_model_context_window, h1, h2, h3, h4, h5]
            refine ⟨?_, fun _ => hcw⟩
            rw [get_chunk_parameters, hcw]
            norm_num [spec_chunk_parameters]

/-- Witness for `claim_C8` at an unrecognized model identifier. -/
theorem claim_C8_witness :
    ("gpt-5-mini" ∉ (["gpt-4-turbo", "gpt-4", "gpt-4-32k", "gpt-3.5-turbo",
      "gpt-3.5-turbo-16k"] : List String))
    ∧ get_model_context_window "gpt-5-mini" = 4096 :=
  ⟨by decide, (claim_C8 "gpt-5-mini").2 (by decide)⟩

/-! ## Claim C9 — cache round-trips -/

theorem decodeSegment_encodeSegment (s : TranscriptSegment) :
    decodeSegment (encodeSegment s) = some s := by
  cases s
  rfl

theorem decodeSegList_encode (l : List TranscriptSegment) :
    decodeSegList (l.map encodeSegment) = some l := by
  induction l with
  | nil => rfl
  | cons s rest ih =>
    simp only [List.map_cons, decodeSegList, decodeSegment_encodeSegment s, ih]

theorem decodeSegments_encodeSegments (l : List TranscriptSegment) :
    decodeSegments (encodeSegments l) = some l := by
  rw [encodeSegments, decodeSegments, decodeSegList_encode]

/-- Claim C9 (confirmed): caching a transcript and reading it back under
the same video id returns a structurally equal segment list, and the same
round-trip holds for summaries keyed by `(video_id, depth, model)`. -/
theorem claim_C9 (cache_dir : String) (st : CacheState)
    (video_id depth model summary : String) (transcript : List TranscriptSegment)
    (now now2 : ℚ) (reprLen : List TranscriptSegment → Nat) :
    get_transcript cache_dir (cache_transcript cache_dir st video_id transcript now reprLen)
        video_id = some transcript
    ∧ get_summary cache_dir (cache_summary cache_dir st video_id depth model summary now2)
        video_id depth model = some summary := by
  constructor
  · rw [get_transcript, cache_transcript]
    simp only [Function.update_same]
    exact decodeSegments_encodeSegments transcript
  · rw [get_summary, cache_summary]
    simp only [Function.update_same]

/-! ## Claim C10 — output-file versioning -/

theorem digitChar_ne_mark (d : Nat) : digitChar d ≠ ')' ∧ digitChar d ≠ '(' := by
  rw [digitChar]
  split_ifs <;> exact ⟨by decide, by decide⟩

theorem natDigitsRev_mem_ne_mark :
    ∀ (fuel n : Nat), ∀ c ∈ natDigitsRev fuel n, c ≠ ')' := by
  intro fuel
  induction fuel with
  | zero => intro n c hc; simp [natDigitsRev] at hc
  | succ f ih =>
    intro n c hc
    simp only [natDigitsRev] at hc
    split at hc
    · simp only [List.mem_singleton] at hc
      subst hc
      exact (digitChar_ne_mark n).1
    · rcases List.mem_cons.1 hc with rfl | hc
      · exact (digitChar_ne_mark (n % 10)).1
      · exact ih (n / 10) c hc

theorem digitVal_digitChar : ∀ r : Nat, r < 10 → digitVal (digitChar r) = r := by
  decide

theorem revVal_natDigitsRev : ∀ (fuel n : Nat), n < fuel →
    revVal (natDigitsRev fuel n) = n := by
  intro fuel
  induction fuel with
  | zero => intro n h; omega
  | succ f ih =>
    intro n h
    simp only [natDigitsRev]
    by_cases h10 : n < 10
    · rw [if_pos h10]
      simp only [revVal]
      rw [digitVal_digitChar n h10]
      omega
    · rw [if_neg h10]
      simp only [revVal]
      have hdiv : n / 10 < n := Nat.div_lt_self (by omega) (by omega)
      rw [ih (n / 10) (by omega), digitVal_digitChar (n % 10) (Nat.mod_lt _ (by omega))]
      exact Nat.mod_add_div n 10

theorem natRepr_injective : Function.Injective natRepr := by
  intro m n h
  have hdata : (natDigitsRev (m + 1) m).reverse = (natDigitsRev (n + 1) n).reverse :=
    congrArg String.data h
  have hdig : natDigitsRev (m + 1) m = natDigitsRev (n + 1) n := by
    have := congrArg List.reverse hdata
    simpa using this
  have := congrArg revVal hdig
  rwa [revVal_natDigitsRev _ _ (Nat.lt_succ_self m),
    revVal_natDigitsRev _ _ (Nat.lt_succ_self n)] at this

theorem append_marker_cancel {α : Type} [DecidableEq α] (mark : α) :
    ∀ (a b t1 t2 : List α), mark ∉ a → mark ∉ b →
      a ++ mark :: t1 = b ++ mark :: t2 → a = b := by
  intro a
  induction a with
  | nil =>
    intro b t1 t2 _ hb h
    cases b with
    | nil => rfl
    | cons y bs =>
      simp only [List.nil_append, List.cons_append, List.cons.injEq] at h
      exact absurd (h.1 ▸ List.mem_cons_self y bs) (h.1 ▸ hb)
  | cons x as ih =>
    intro b t1 t2 ha hb h
    cases b with
    | nil =>
      simp only [List.cons_append, List.nil_append, List.cons.injEq] at h
      exact absurd (h.1 ▸ List.mem_cons_self x as) (fun hmem => ha (h.1 ▸ hmem))
    | cons y bs =>
      simp only [List.cons_append, List.cons.injEq] at h
      have heq : as = bs :=
        ih bs t1 t2 (fun hm => ha (List.mem_cons_of_mem x hm))
          (fun hm => hb (List.mem_cons_of_mem y hm)) h.2
      rw [h.1, heq]

theorem versionedName_data (bp ext : String) (n : Nat) :
    (versionedName bp ext n).data =
      bp.data ++ ' ' :: '(' :: ((natRepr n).data ++ ')' :: ext.data) := by
  show (bp.data ++ (' ' :: '(' :: []) ++ (natRepr n).data ++ (')' :: []) ++ ext.data) = _
  simp

theorem versionedName_injective (bp ext : String) :
    Function.Injective (versionedName bp ext) := by
  intro m n h
  have hd := congrArg String.data h
  rw [versionedName_data, versionedName_data] at hd
  have h1 := List.append_cancel_left hd
  simp only [List.cons.injEq, true_and] at h1
  have hnm : ')' ∉ (natRepr m).data := by
    intro hmem
    exact natDigitsRev_mem_ne_mark (m + 1) m ')' (List.mem_reverse.1 hmem) rfl
  have hnn : ')' ∉ (natRepr n).data := by
    intro hmem
    exact natDigitsRev_mem_ne_mark (n + 1) n ')' (List.mem_reverse.1 hmem) rfl
  have hrepr : (natRepr m).data = (natRepr n).data :=
    append_marker_cancel ')' _ _ _ _ hnm hnn h1
  apply natRepr_injective
  have := congrArg (fun l => (⟨l⟩ : String)) hrepr
  simpa using this

theorem firstFreeCounter_spec (files : List String) (mk : Nat → String) :
    ∀ (fuel n : Nat), (∃ j < fuel, mk (n + j) ∉ files) →
      n ≤ firstFreeCounter files mk fuel n
      ∧ mk (firstFreeCounter files mk fuel n) ∉ files
      ∧ ∀ k, n ≤ k → k < firstFreeCounter files mk fuel n → mk k ∈ files := by
  intro fuel
  induction fuel with
  | zero =>
    intro n h
    rcases h with ⟨j, hj, _⟩
    omega
  | succ f ih =>
    intro n h
    simp only [firstFreeCounter]
    by_cases hmem : mk n ∈ files
    · rw [if_pos hmem]
      have hex : ∃ j < f, mk (n + 1 + j) ∉ files := by
        rcases h with ⟨j, hj, hfree⟩
        cases j with
        | zero => exact absurd hmem (by simpa using hfree)
        | succ j' =>
          refine ⟨j', by omega, ?_⟩
          rw [show n + 1 + j' = n + (j' + 1) from by omega]
          exact hfree
      rcases ih (n + 1) hex with ⟨h1, h2, h3⟩
      refine ⟨by omega, h2, ?_⟩
      intro k hk1 hk2
      by_cases hkn : k = n
      · subst hkn
        exact hmem
      · exact h3 k (by omega) hk2
    · rw [if_neg hmem]
      exact ⟨Nat.le_refl n, hmem, fun k hk1 hk2 => absurd hk2 (by omega)⟩

theorem exists_free_counter (files : List String) (mk : Nat → String)
    (hinj : Function.Injective mk) :
    ∃ j < files.length + 1, mk (1 + j) ∉ files := by
  by_contra hall
  push_neg at hall
  have hinj' : Function.Injective (fun j : Nat => mk (1 + j)) := by
    intro a b hab
    have := hinj hab
    omega
  have hsub : (Finset.range (files.length + 1)).image (fun j => mk (1 + j)) ⊆
      files.toFinset := by
    intro x hx
    rcases Finset.mem_image.1 hx with ⟨j, hj, rfl⟩
    exact List.mem_toFinset.2 (hall j (Finset.mem_range.1 hj))
  have hcard : files.length + 1 ≤ files.toFinset.card := by
    calc files.length + 1 = (Finset.range (files.length + 1)).card :=
          (Finset.card_range _).symm
      _ = ((Finset.range (files.length + 1)).image (fun j => mk (1 + j))).card :=
          (Finset.card_image_of_injective _ hinj').symm
      _ ≤ files.toFinset.card := Finset.card_le_card hsub
  have hle : files.toFinset.card ≤ files.length := files.toFinset_card_le
  omega

/-- Claim C10 (confirmed): `get_next_available_filename` returns a path in
the target directory that does not name an existing file: the unversioned
path when that is free, and otherwise the versioned path with the smallest
counter `n ≥ 1` whose name does not exist (every smaller counter naming an
existing file).  The function only tests existence; it writes nothing, so
no existing file is overwritten or modified. -/
theorem claim_C10 (files : List String) (base_filename extension output_dir : String) :
    get_next_available_filename files base_filename extension output_dir ∉ files
    ∧ ((output_dir ++ "/" ++ base_filename ++ extension) ∉ files →
        get_next_available_filename files base_filename extension output_dir =
          output_dir ++ "/" ++ base_filename ++ extension)
    ∧ ((output_dir ++ "/" ++ base_filename ++ extension) ∈ files →
        ∃ n, 1 ≤ n
          ∧ get_next_available_filename files base_filename extension output_dir =
              versionedName (output_dir ++ "/" ++ base_filename) extension n
          ∧ versionedName (output_dir ++ "/" ++ base_filename) extension n ∉ files
          ∧ ∀ k, 1 ≤ k → k < n →
              versionedName (output_dir ++ "/" ++ base_filename) extension k ∈ files) := by
  have hex : ∃ j < files.length + 1,
      versionedName (output_dir ++ "/" ++ base_filename) extension (1 + j) ∉ files :=
    exists_free_counter files _ (versionedName_injective (output_dir ++ "/" ++ base_filename)
      extension)
  rcases firstFreeCounter_spec files
      (versionedName (output_dir ++ "/" ++ base_filename) extension)
      (files.length + 1) 1 hex with ⟨hge, hfree, hall⟩
  by_cases hbase : (output_dir ++ "/" ++ base_filename ++ extension) ∈ files
  · rw [get_next_available_filename]
    simp only [if_pos hbase]
    refine ⟨hfree, fun h => absurd hbase h, fun _ => ?_⟩
    exact ⟨firstFreeCounter files _ (files.length + 1) 1, hge, rfl, hfree,
      fun k hk1 hk2 => hall k hk1 hk2⟩
  · rw [get_next_available_filename]
    simp only [if_neg hbase]
    exact ⟨hbase, fun _ => by simp, fun h => absurd h hbase⟩

/-- Witness for `claim_C10` at a concrete filesystem. -/
theorem claim_C10_witness :
    (("out" ++ "/" ++ "f" ++ ".md") ∈ (["out/f.md", "out/f (1).md"] : List String))
    ∧ ∃ n, 1 ≤ n
        ∧ get_next_available_filename ["out/f.md", "out/f (1).md"] "f" ".md" "out" =
            versionedName ("out" ++ "/" ++ "f") ".md" n
        ∧ versionedName ("out" ++ "/" ++ "f") ".md" n ∉
            (["out/f.md", "out/f (1).md"] : List String)
        ∧ ∀ k, 1 ≤ k → k < n →
            versionedName ("out" ++ "/" ++ "f") ".md" k ∈
              (["out/f.md", "out/f (1).md"] : List String) :=
  ⟨by decide, (claim_C10 ["out/f.md", "out/f (1).md"] "f" ".md" "out").2.2 (by decide)⟩
